import Mathlib

/-!
Verification development for the trompj adventure_game repository
(trompj.buildrooms.c and trompj.adventure.c), as a shallow embedding.

The 7x7 adjacency matrix of the graph builder is embedded as a function
`Fin 7 → Fin 7 → Int` (cells hold -1 or the connected room's index), the
room records and the runner's state machine as plain Lean structures, and
the randomized draws of the C code as explicitly supplied candidate values
that are filtered by the very acceptance tests of the C loops.
-/

namespace AdventureGame

/-- Integer value stored in an adjacency cell for the room index `y`
(C stores the room number itself: `roomGraph[roomA][roomB] = roomB`). -/
def val (y : Fin 7) : Int := (y : Nat)

/-- The 7x7 adjacency matrix of trompj.buildrooms.c. -/
abbrev Graph := Fin 7 → Fin 7 → Int

/-- `initializeGraph`: every cell is set to -1. -/
def initializeGraph : Graph := fun _ _ => -1

/-- The per-row counter computed by the counting loops of `isGraphFull` and
`canAddConnectionFrom`: how many cells of row `x` differ from -1. -/
def connCount (g : Graph) (x : Fin 7) : Nat :=
  (Finset.univ.filter fun y => g x y ≠ -1).card

/-- `isGraphFull`: returns 1 exactly when every room has at least 3 connections. -/
def isGraphFull (g : Graph) : Bool := decide (∀ x : Fin 7, 3 ≤ connCount g x)

/-- `canAddConnectionFrom`: returns 1 exactly when the row holds fewer than 6
connections. -/
def canAddConnectionFrom (g : Graph) (r : Fin 7) : Bool := decide (connCount g r < 6)

/-- `isSameRoom`: compares the two room numbers. -/
def isSameRoom (a b : Fin 7) : Bool := a == b

/-- `connectionAlreadyExists`: the double loop of the C function, looking for a
cell of row `a` equal to `b` together with a cell of row `b` equal to `a`,
both different from -1. -/
def connectionAlreadyExists (g : Graph) (a b : Fin 7) : Bool :=
  (List.finRange 7).any fun iA => (List.finRange 7).any fun iB =>
    g a iA == val b && g a iA != -1 && g b iB != -1 && g b iB == val a

/-- `connectRoom`: store `b` in the cell `(a, b)`. -/
def connectRoom (g : Graph) (a b : Fin 7) : Graph :=
  fun x y => if x = a ∧ y = b then val b else g x y

/-- The acceptance test of the do-while loop of `addRandomConnection` that draws
`roomB`: the loop keeps drawing while the room is full, equal to `roomA`, or
already connected to it. -/
def acceptableDraw (g : Graph) (a b : Fin 7) : Bool :=
  !((!canAddConnectionFrom g b) || isSameRoom a b || connectionAlreadyExists g a b)

/-- The tail of `addRandomConnection` once both draws were accepted:
`connectRoom(g, a, b); connectRoom(g, b, a)`. -/
def addConnection (g : Graph) (a b : Fin 7) : Graph :=
  connectRoom (connectRoom g a b) b a

/-- Total number of connection cells over all rows. -/
def edgeCount (g : Graph) : Nat := ∑ x : Fin 7, connCount g x

/-- The graphs reachable by the generation loop of `main`:
`while (isGraphFull(roomGraph) == 0) addRandomConnection(roomGraph);`
where a step records an accepted pair of draws `(a, b)`: `a` passed the first
while loop (`canAddConnectionFrom`) and `b` passed the do-while acceptance test. -/
inductive Reachable : Graph → Prop where
  | init : Reachable initializeGraph
  | step (g : Graph) (a b : Fin 7) : Reachable g → isGraphFull g = false →
      canAddConnectionFrom g a = true → acceptableDraw g a b = true →
      Reachable (addConnection g a b)

/-- Structural invariant of the adjacency matrix during generation: cells hold
-1 or their own column index, the diagonal stays -1, and the matrix is
symmetric in the sense that the cells `(x, y)` and `(y, x)` are set together. -/
def GraphInv (g : Graph) : Prop :=
  (∀ x y, g x y = -1 ∨ g x y = val y) ∧ (∀ x, g x x = -1) ∧
    (∀ x y, g x y ≠ -1 → g y x ≠ -1)

lemma val_nonneg (y : Fin 7) : 0 ≤ val y := Int.ofNat_nonneg _

lemma val_ne_negOne (y : Fin 7) : val y ≠ -1 := by
  have := val_nonneg y
  omega

lemma val_inj {y z : Fin 7} (h : val y = val z) : y = z := by
  simp only [val] at h
  apply Fin.ext
  exact_mod_cast h

lemma addConnection_apply (g : Graph) (a b x y : Fin 7) :
    addConnection g a b x y =
      if x = b ∧ y = a then val a else if x = a ∧ y = b then val b else g x y := rfl

lemma acceptableDraw_spec {g : Graph} {a b : Fin 7} (h : acceptableDraw g a b = true) :
    canAddConnectionFrom g b = true ∧ a ≠ b ∧ connectionAlreadyExists g a b = false := by
  unfold acceptableDraw at h
  cases hb : canAddConnectionFrom g b with
  | false => rw [hb] at h; simp at h
  | true =>
    cases he : connectionAlreadyExists g a b with
    | true => rw [he] at h; simp at h
    | false =>
      cases hs : isSameRoom a b with
      | true => rw [hb, hs] at h; simp at h
      | false =>
        refine ⟨rfl, ?_, rfl⟩
        simpa [isSameRoom] using hs

/-- Under the structural invariant, the scan of `connectionAlreadyExists` answers
exactly whether the cell `(a, b)` is set. -/
lemma connectionAlreadyExists_eq_false_iff {g : Graph} (hinv : GraphInv g) (a b : Fin 7) :
    connectionAlreadyExists g a b = false ↔ g a b = -1 := by
  obtain ⟨hshape, _, hsymm⟩ := hinv
  rw [← not_iff_not]
  simp only [Bool.not_eq_false, connectionAlreadyExists, List.any_eq_true,
    Bool.and_eq_true, beq_iff_eq, bne_iff_ne, ne_eq, List.mem_finRange, true_and]
  constructor
  · rintro ⟨iA, iB, ⟨⟨hvb, hA⟩, hB⟩, hva⟩
    have hshapeA : g a iA = val iA := (hshape a iA).resolve_left hA
    have hiA : iA = b := val_inj (by rw [← hshapeA, hvb])
    subst hiA
    rw [hvb]
    exact val_ne_negOne _
  · intro hab
    have hvb : g a b = val b := (hshape a b).resolve_left hab
    have hba : g b a ≠ -1 := hsymm a b hab
    have hva : g b a = val a := (hshape b a).resolve_left hba
    exact ⟨b, a, ⟨⟨hvb, hab⟩, hba⟩, hva⟩

lemma connCount_le_six {g : Graph} (hinv : GraphInv g) (x : Fin 7) :
    connCount g x ≤ 6 := by
  have hsub : (Finset.univ.filter fun y => g x y ≠ -1) ⊆ Finset.univ.erase x := by
    intro y hy
    rw [Finset.mem_filter] at hy
    refine Finset.mem_erase.mpr ⟨?_, Finset.mem_univ y⟩
    rintro rfl
    exact hy.2 (hinv.2.1 _)
  have h1 : connCount g x ≤ (Finset.univ.erase x).card := Finset.card_le_card hsub
  have h2 : (Finset.univ.erase x).card = 6 := by
    rw [Finset.card_erase_of_mem (Finset.mem_univ x), Finset.card_univ, Fintype.card_fin]
  omega

/-- A row with fewer than 6 connections has an unset off-diagonal cell. -/
lemma exists_unconnected {g : Graph} (_hinv : GraphInv g) {a : Fin 7}
    (ha : connCount g a < 6) : ∃ b, b ≠ a ∧ g a b = -1 := by
  by_contra h
  push_neg at h
  have hsub : Finset.univ.erase a ⊆ (Finset.univ.filter fun y => g a y ≠ -1) := by
    intro y hy
    rw [Finset.mem_erase] at hy
    exact Finset.mem_filter.mpr ⟨Finset.mem_univ y, h y hy.1⟩
  have : (Finset.univ.erase a).card ≤ connCount g a := Finset.card_le_card hsub
  rw [Finset.card_erase_of_mem (Finset.mem_univ a)] at this
  simp at this
  omega

/-- A row holding 6 connections is connected to every other room. -/
lemma row_full {g : Graph} (hinv : GraphInv g) {b : Fin 7}
    (hb : connCount g b = 6) (a : Fin 7) (hab : a ≠ b) : g b a ≠ -1 := by
  have hsub : (Finset.univ.filter fun y => g b y ≠ -1) ⊆ Finset.univ.erase b := by
    intro y hy
    rw [Finset.mem_filter] at hy
    refine Finset.mem_erase.mpr ⟨?_, Finset.mem_univ y⟩
    rintro rfl
    exact hy.2 (hinv.2.1 _)
  have hcard : (Finset.univ.erase b).card ≤ (Finset.univ.filter fun y => g b y ≠ -1).card := by
    rw [Finset.card_erase_of_mem (Finset.mem_univ b), Finset.card_univ, Fintype.card_fin]
    have hcc : connCount g b = (Finset.univ.filter fun y => g b y ≠ -1).card := rfl
    omega
  have heq := Finset.eq_of_subset_of_card_le hsub hcard
  have : a ∈ Finset.univ.filter fun y => g b y ≠ -1 := by
    rw [heq]
    exact Finset.mem_erase.mpr ⟨hab, Finset.mem_univ a⟩
  exact (Finset.mem_filter.mp this).2

lemma graphInv_addConnection {g : Graph} (hinv : GraphInv g) {a b : Fin 7}
    (hne : a ≠ b) : GraphInv (addConnection g a b) := by
  obtain ⟨hshape, hdiag, hsymm⟩ := hinv
  refine ⟨?_, ?_, ?_⟩
  · intro x y
    rw [addConnection_apply]
    by_cases h1 : x = b ∧ y = a
    · rw [if_pos h1]
      exact Or.inr (by rw [h1.2])
    by_cases h2 : x = a ∧ y = b
    · rw [if_neg h1, if_pos h2]
      exact Or.inr (by rw [h2.2])
    · rw [if_neg h1, if_neg h2]
      exact hshape x y
  · intro x
    rw [addConnection_apply]
    have h1 : ¬(x = b ∧ x = a) := by rintro ⟨rfl, rfl⟩; exact hne rfl
    have h2 : ¬(x = a ∧ x = b) := by rintro ⟨rfl, rfl⟩; exact hne rfl
    rw [if_neg h1, if_neg h2]
    exact hdiag x
  · intro x y hxy
    rw [addConnection_apply] at hxy ⊢
    by_cases h1 : y = b ∧ x = a
    · rw [if_pos h1]
      exact val_ne_negOne a
    by_cases h2 : y = a ∧ x = b
    · rw [if_neg h1, if_pos h2]
      exact val_ne_negOne b
    · rw [if_neg h1, if_neg h2]
      by_cases h3 : x = b ∧ y = a
      · exact absurd ⟨h3.2, h3.1⟩ h2
      by_cases h4 : x = a ∧ y = b
      · exact absurd ⟨h4.2, h4.1⟩ h1
      · rw [if_neg h3, if_neg h4] at hxy
        exact hsymm x y hxy

lemma reachable_graphInv {g : Graph} (h : Reachable g) : GraphInv g := by
  induction h with
  | init =>
      refine ⟨fun _ _ => Or.inl rfl, fun _ => rfl, fun _ _ h => absurd rfl h⟩
  | step g a b _ _ _ hdraw ih =>
      exact graphInv_addConnection ih (acceptableDraw_spec hdraw).2.1

lemma connCount_addConnection_fst {g : Graph} {a b : Fin 7} (hne : a ≠ b)
    (hab : g a b = -1) :
    connCount (addConnection g a b) a = connCount g a + 1 := by
  have hrow : ∀ y, addConnection g a b a y = if y = b then val b else g a y := by
    intro y
    rw [addConnection_apply]
    have h1 : ¬(a = b ∧ y = a) := fun h => hne h.1
    rw [if_neg h1]
    by_cases h2 : y = b
    · rw [if_pos ⟨rfl, h2⟩, if_pos h2]
    · rw [if_neg (fun h => h2 h.2), if_neg h2]
  have hset : (Finset.univ.filter fun y => addConnection g a b a y ≠ -1) =
      insert b (Finset.univ.filter fun y => g a y ≠ -1) := by
    ext y
    simp only [Finset.mem_filter, Finset.mem_univ, true_and, Finset.mem_insert, hrow y]
    by_cases h2 : y = b
    · simp [h2, val_ne_negOne b]
    · simp [h2]
  have hnotmem : b ∉ (Finset.univ.filter fun y => g a y ≠ -1) := by
    simp [hab]
  unfold connCount
  rw [hset, Finset.card_insert_of_not_mem hnotmem]

lemma connCount_addConnection_snd {g : Graph} {a b : Fin 7} (hne : a ≠ b)
    (hba : g b a = -1) :
    connCount (addConnection g a b) b = connCount g b + 1 := by
  have hrow : ∀ y, addConnection g a b b y = if y = a then val a else g b y := by
    intro y
    rw [addConnection_apply]
    by_cases h2 : y = a
    · rw [if_pos ⟨rfl, h2⟩, if_pos h2]
    · rw [if_neg (fun h => h2 h.2), if_neg (fun h => hne h.1.symm), if_neg h2]
  have hset : (Finset.univ.filter fun y => addConnection g a b b y ≠ -1) =
      insert a (Finset.univ.filter fun y => g b y ≠ -1) := by
    ext y
    simp only [Finset.mem_filter, Finset.mem_univ, true_and, Finset.mem_insert, hrow y]
    by_cases h2 : y = a
    · simp [h2, val_ne_negOne a]
    · simp [h2]
  have hnotmem : a ∉ (Finset.univ.filter fun y => g b y ≠ -1) := by
    simp [hba]
  unfold connCount
  rw [hset, Finset.card_insert_of_not_mem hnotmem]

lemma connCount_addConnection_other {g : Graph} {a b x : Fin 7} (hxa : x ≠ a)
    (hxb : x ≠ b) : connCount (addConnection g a b) x = connCount g x := by
  unfold connCount
  congr 1
  apply Finset.filter_congr
  intro y _
  rw [addConnection_apply, if_neg (fun h => hxb h.1), if_neg (fun h => hxa h.1)]

lemma edgeCount_addConnection {g : Graph} {a b : Fin 7} (hne : a ≠ b)
    (hab : g a b = -1) (hba : g b a = -1) :
    edgeCount (addConnection g a b) = edgeCount g + 2 := by
  unfold edgeCount
  have hpt : ∀ x : Fin 7, connCount (addConnection g a b) x =
      connCount g x + (if x = a ∨ x = b then 1 else 0) := by
    intro x
    by_cases hxa : x = a
    · subst hxa
      rw [connCount_addConnection_fst hne hab, if_pos (Or.inl rfl)]
    by_cases hxb : x = b
    · subst hxb
      rw [connCount_addConnection_snd hne hba, if_pos (Or.inr rfl)]
    · rw [connCount_addConnection_other hxa hxb, if_neg (by tauto)]
      omega
  rw [Finset.sum_congr rfl (fun x _ => hpt x), Finset.sum_add_distrib]
  congr 1
  rw [Finset.sum_boole]
  have hf : (Finset.univ.filter fun x : Fin 7 => x = a ∨ x = b) = {a, b} := by
    ext x
    simp [Finset.mem_insert]
  rw [hf, Finset.card_insert_of_not_mem (by simp [hne]), Finset.card_singleton]
  rfl

lemma edgeCount_le {g : Graph} (hinv : GraphInv g) : edgeCount g ≤ 42 := by
  unfold edgeCount
  calc ∑ x : Fin 7, connCount g x ≤ ∑ _x : Fin 7, 6 :=
        Finset.sum_le_sum fun x _ => connCount_le_six hinv x
    _ = 42 := by simp

/-- Claim C1: when the generation loop terminates (`isGraphFull` first returns 1),
every one of the 7 nodes has degree between 3 and 6 inclusive, no node has an
edge to itself, no pair of nodes is connected by more than one edge (a row
records any given neighbour in at most one cell), and the adjacency is
symmetric (`A` records `B` exactly when `B` records `A`). -/
theorem generated_graph_invariants (g : Graph) (hre : Reachable g)
    (hfull : isGraphFull g = true) :
    ∀ x : Fin 7, (3 ≤ connCount g x ∧ connCount g x ≤ 6) ∧ g x x = -1 ∧
      (∀ y : Fin 7, (Finset.univ.filter fun z => g x z = val y).card ≤ 1) ∧
      (∀ y : Fin 7, g x y ≠ -1 ↔ g y x ≠ -1) := by
  have hinv := reachable_graphInv hre
  have hfull' : ∀ x : Fin 7, 3 ≤ connCount g x := of_decide_eq_true hfull
  intro x
  refine ⟨⟨hfull' x, connCount_le_six hinv x⟩, hinv.2.1 x, ?_, ?_⟩
  · intro y
    have hsub : (Finset.univ.filter fun z => g x z = val y) ⊆ {y} := by
      intro z hz
      rw [Finset.mem_filter] at hz
      rcases hinv.1 x z with h | h
      · exact absurd (show val y = -1 by rw [← hz.2]; exact h) (val_ne_negOne y)
      · rw [Finset.mem_singleton]
        exact val_inj (by rw [← h, hz.2])
    exact le_trans (Finset.card_le_card hsub) (le_of_eq (Finset.card_singleton y))
  · intro y
    exact ⟨hinv.2.2 x y, hinv.2.2 y x⟩

/-- Claim C2: while the graph is not yet full, the first candidate loop always
has a room it can accept, every acceptable first room admits a second room
passing the do-while acceptance test, and each accepted edge strictly increases
the degree of two distinct nodes and the total cell count, which stays bounded
by 42, so the generation loop cannot deadlock and makes strict progress. -/
theorem generation_loop_progress (g : Graph) (hre : Reachable g)
    (hnf : isGraphFull g = false) :
    (∃ a, canAddConnectionFrom g a = true) ∧
    (∀ a, canAddConnectionFrom g a = true → ∃ b, acceptableDraw g a b = true) ∧
    (∀ a b, acceptableDraw g a b = true →
      a ≠ b ∧
      connCount (addConnection g a b) a = connCount g a + 1 ∧
      connCount (addConnection g a b) b = connCount g b + 1 ∧
      edgeCount (addConnection g a b) = edgeCount g + 2 ∧
      edgeCount (addConnection g a b) ≤ 42) := by
  have hinv := reachable_graphInv hre
  refine ⟨?_, ?_, ?_⟩
  · have hnf' : ¬∀ x : Fin 7, 3 ≤ connCount g x := of_decide_eq_false hnf
    push_neg at hnf'
    obtain ⟨x, hx⟩ := hnf'
    exact ⟨x, decide_eq_true (by omega)⟩
  · intro a ha
    have ha' : connCount g a < 6 := of_decide_eq_true ha
    obtain ⟨b, hb_ne, hb_un⟩ := exists_unconnected hinv ha'
    refine ⟨b, ?_⟩
    have hcanb : connCount g b < 6 := by
      by_contra hfull6
      have h6 : connCount g b = 6 := le_antisymm (connCount_le_six hinv b) (by omega)
      exact hinv.2.2 b a (row_full hinv h6 a hb_ne.symm) hb_un
    have h1 : canAddConnectionFrom g b = true := decide_eq_true hcanb
    have h2 : isSameRoom a b = false := by
      simp only [isSameRoom, beq_eq_false_iff_ne, ne_eq]
      exact fun h => hb_ne h.symm
    have h3 : connectionAlreadyExists g a b = false :=
      (connectionAlreadyExists_eq_false_iff hinv a b).mpr hb_un
    simp [acceptableDraw, h1, h2, h3]
  · intro a b hd
    obtain ⟨_, hne, hcex⟩ := acceptableDraw_spec hd
    have hab : g a b = -1 := (connectionAlreadyExists_eq_false_iff hinv a b).mp hcex
    have hba : g b a = -1 := by
      by_contra hba'
      exact hinv.2.2 b a hba' hab
    refine ⟨hne, connCount_addConnection_fst hne hab,
      connCount_addConnection_snd hne hba, edgeCount_addConnection hne hab hba,
      edgeCount_le (graphInv_addConnection hinv hne)⟩

/-- Concrete generation run used as a witness: a 7-cycle plus five chords. -/
def gW1 : Graph := addConnection initializeGraph 0 1

def gW2 : Graph := addConnection gW1 1 2

def gW3 : Graph := addConnection gW2 2 3

def gW4 : Graph := addConnection gW3 3 4

def gW5 : Graph := addConnection gW4 4 5

def gW6 : Graph := addConnection gW5 5 6

def gW7 : Graph := addConnection gW6 6 0

def gW8 : Graph := addConnection gW7 0 2

def gW9 : Graph := addConnection gW8 1 3

def gW10 : Graph := addConnection gW9 2 4

def gW11 : Graph := addConnection gW10 3 5

def gW12 : Graph := addConnection gW11 4 6

lemma reach_gW12 : Reachable gW12 :=
  Reachable.step gW11 4 6
    (Reachable.step gW10 3 5
      (Reachable.step gW9 2 4
        (Reachable.step gW8 1 3
          (Reachable.step gW7 0 2
            (Reachable.step gW6 6 0
              (Reachable.step gW5 5 6
                (Reachable.step gW4 4 5
                  (Reachable.step gW3 3 4
                    (Reachable.step gW2 2 3
                      (Reachable.step gW1 1 2
                        (Reachable.step initializeGraph 0 1 Reachable.init
                          (by decide) (by decide) (by decide))
                        (by decide) (by decide) (by decide))
                      (by decide) (by decide) (by decide))
                    (by decide) (by decide) (by decide))
                  (by decide) (by decide) (by decide))
                (by decide) (by decide) (by decide))
              (by decide) (by decide) (by decide))
            (by decide) (by decide) (by decide))
          (by decide) (by decide) (by decide))
        (by decide) (by decide) (by decide))
      (by decide) (by decide) (by decide))
    (by decide) (by decide) (by decide)

theorem generated_graph_invariants_witness :
    3 ≤ connCount gW12 0 ∧ connCount gW12 0 ≤ 6 :=
  (generated_graph_invariants gW12 reach_gW12 (by decide) 0).1

theorem generation_loop_progress_witness :
    ∃ a, canAddConnectionFrom initializeGraph a = true :=
  (generation_loop_progress initializeGraph Reachable.init (by decide)).1

/-! ## Room files: the serializer of setupRoomFiles and the parser readFile -/

/-- The 10 candidate room names of `selectRooms`. -/
def roomNamePool : List String :=
  ["Dungeon", "Barracks", "Garden", "Game", "Medical", "Corridor", "Kitchen",
    "Stairs", "Basement", "Attic"]

/-- The three role strings written by `setupRoomFiles`. -/
def roomTypeNames : List String := ["START_ROOM", "MID_ROOM", "END_ROOM"]

/-- `strstr` on character lists: scans every suffix position for the needle. -/
def strstrChars (hay needle : List Char) : Bool :=
  match hay with
  | [] => needle.isPrefixOf ([] : List Char)
  | c :: t => needle.isPrefixOf (c :: t) || strstrChars t needle

/-- `strstr` on strings, as used by `readFile` to classify a line. -/
def strstrB (hay needle : String) : Bool := strstrChars hay.toList needle.toList

/-- The extraction loop of `readFile`: copy the characters of the line from
position `start` on, skipping every newline character. -/
def extractPayload (line : String) (start : Nat) : String :=
  ((line.toList.drop start).filter fun c => c != '\n').asString

/-- The room struct of trompj.adventure.c: name, type and the connections that
have been stored (in file order); NULL pointers are `none` / the absent tail. -/
structure room where
  roomName : Option String
  roomType : Option String
  roomConnections : List String
deriving DecidableEq

/-- `initializeData`: all fields NULL. -/
def initializeData : room := ⟨none, none, []⟩

def lineIsName (line : String) : Bool := strstrB line ("ROOM NAME:")

def lineIsType (line : String) : Bool := strstrB line ("ROOM TYPE:")

def lineIsConn (line : String) : Bool := strstrB line ("CONNECTION")

/-- One iteration of the fgets loop of `readFile`. -/
def readFileStep (r : room) (line : String) : room :=
  if lineIsName line then { r with roomName := some (extractPayload line 11) }
  else if lineIsType line then { r with roomType := some (extractPayload line 11) }
  else if lineIsConn line then
    { r with roomConnections := r.roomConnections ++ [extractPayload line 14] }
  else r

/-- `readFile` over the list of lines of the file. -/
def readFile (lines : List String) : room := lines.foldl readFileStep initializeData

/-- The sequence of `roomConnections` indices written by `readFile`'s
`roomObj.roomConnections[connNumber] = roomConn` statement, starting from a
given value of `connNumber`. -/
def connWriteIndices : Nat → List String → List Nat
  | _, [] => []
  | n, line :: rest =>
    if lineIsName line then connWriteIndices n rest
    else if lineIsType line then connWriteIndices n rest
    else if lineIsConn line then n :: connWriteIndices (n + 1) rest
    else connWriteIndices n rest

/-- How many lines of the file take the CONNECTION branch of `readFile`. -/
def connLineCount (lines : List String) : Nat :=
  (lines.filter fun line => !lineIsName line && !lineIsType line && lineIsConn line).length

/-- The numbered CONNECTION lines written by `setupRoomFiles`, counting from
`connCounter = k`. -/
def connLines : Nat → List String → List String
  | _, [] => []
  | k, c :: rest => ("CONNECTION " ++ toString k ++ ": " ++ c ++ "\n") :: connLines (k + 1) rest

/-- The exact lines `setupRoomFiles` prints for one room record: the ROOM NAME
line, the CONNECTION lines numbered from 1 in list order, the ROOM TYPE line. -/
def serializeRoom (name : String) (conns : List String) (ty : String) : List String :=
  ("ROOM NAME: " ++ name ++ "\n") :: (connLines 1 conns ++ [("ROOM TYPE: " ++ ty ++ "\n")])

lemma name_line_facts (name : String) (h : name ∈ roomNamePool) :
    lineIsName ("ROOM NAME: " ++ name ++ "\n") = true ∧
      extractPayload ("ROOM NAME: " ++ name ++ "\n") 11 = name := by
  fin_cases h <;> exact ⟨by decide, by decide⟩

lemma type_line_facts (ty : String) (h : ty ∈ roomTypeNames) :
    lineIsName ("ROOM TYPE: " ++ ty ++ "\n") = false ∧
      lineIsType ("ROOM TYPE: " ++ ty ++ "\n") = true ∧
      extractPayload ("ROOM TYPE: " ++ ty ++ "\n") 11 = ty := by
  fin_cases h <;> exact ⟨by decide, by decide, by decide⟩

lemma conn_line_facts (c : String) (k : Nat) (hc : c ∈ roomNamePool) (h1 : 1 ≤ k)
    (h6 : k ≤ 6) :
    lineIsName ("CONNECTION " ++ toString k ++ ": " ++ c ++ "\n") = false ∧
      lineIsType ("CONNECTION " ++ toString k ++ ": " ++ c ++ "\n") = false ∧
      lineIsConn ("CONNECTION " ++ toString k ++ ": " ++ c ++ "\n") = true ∧
      extractPayload ("CONNECTION " ++ toString k ++ ": " ++ c ++ "\n") 14 = c := by
  interval_cases k <;> fin_cases hc <;> exact ⟨by decide, by decide, by decide, by decide⟩

lemma foldl_connLines (conns : List String) : ∀ (k : Nat) (r : room),
    (∀ c ∈ conns, c ∈ roomNamePool) → 1 ≤ k → k + conns.length ≤ 7 →
    List.foldl readFileStep r (connLines k conns) =
      { r with roomConnections := r.roomConnections ++ conns } := by
  induction conns with
  | nil => intro k r _ _ _; simp [connLines]
  | cons c rest ih =>
    intro k r hmem h1 h7
    have hlen : k ≤ 6 := by
      simp only [List.length_cons] at h7
      omega
    have hfacts := conn_line_facts c k (hmem c (List.mem_cons_self c rest)) h1 hlen
    rw [connLines, List.foldl_cons]
    have hstep : readFileStep r ("CONNECTION " ++ toString k ++ ": " ++ c ++ "\n") =
        { r with roomConnections := r.roomConnections ++ [c] } := by
      simp [readFileStep, hfacts.1, hfacts.2.1, hfacts.2.2.1, hfacts.2.2.2]
    rw [hstep, ih (k + 1) _ (fun c hc => hmem c (List.mem_cons_of_mem _ hc)) (by omega)
      (by simp only [List.length_cons] at h7; omega)]
    simp

/-- Claim C3: serializing a room record (name from the candidate pool, 0 to 6
connection names from the pool, role string) in the builder's file format and
parsing the text back with the runner's `readFile` returns the same name, the
same connections in the same order, and the same role. -/
theorem serialize_parse_roundTrip (name ty : String) (conns : List String)
    (hn : name ∈ roomNamePool) (ht : ty ∈ roomTypeNames)
    (hc : ∀ c ∈ conns, c ∈ roomNamePool) (hlen : conns.length ≤ 6) :
    readFile (serializeRoom name conns ty) =
      { roomName := some name, roomType := some ty, roomConnections := conns } := by
  unfold readFile serializeRoom
  rw [List.foldl_cons]
  have hname := name_line_facts name hn
  have hstep1 : readFileStep initializeData ("ROOM NAME: " ++ name ++ "\n") =
      { roomName := some name, roomType := none, roomConnections := [] } := by
    simp [readFileStep, hname.1, hname.2, initializeData]
  rw [hstep1, List.foldl_append,
    foldl_connLines conns 1 _ hc (by omega) (by omega)]
  have htype := type_line_facts ty ht
  rw [List.foldl_cons, List.foldl_nil]
  simp [readFileStep, htype.1, htype.2.1, htype.2.2]

theorem serialize_parse_roundTrip_witness :
    readFile (serializeRoom ("Dungeon") ["Garden", "Attic", "Stairs"] ("END_ROOM")) =
      { roomName := some ("Dungeon"), roomType := some ("END_ROOM"),
        roomConnections := ["Garden", "Attic", "Stairs"] } :=
  serialize_parse_roundTrip _ _ _ (by decide) (by decide) (by decide) (by decide)

lemma connWriteIndices_eq (lines : List String) : ∀ n : Nat,
    connWriteIndices n lines = List.range' n (connLineCount lines) := by
  induction lines with
  | nil => intro n; simp [connWriteIndices, connLineCount]
  | cons line rest ih =>
    intro n
    by_cases h1 : lineIsName line
    · simp [connWriteIndices, connLineCount, h1, List.filter, ih]
    by_cases h2 : lineIsType line
    · simp [connWriteIndices, connLineCount, h1, h2, List.filter, ih]
    by_cases h3 : lineIsConn line
    · have hcount : connLineCount (line :: rest) = connLineCount rest + 1 := by
        simp [connLineCount, List.filter, h1, h2, h3]
      have hwrites : connWriteIndices n (line :: rest) =
          n :: connWriteIndices (n + 1) rest := by
        simp [connWriteIndices, h1, h2, h3]
      rw [hwrites, hcount, List.range'_succ, ih (n + 1)]
    · simp [connWriteIndices, connLineCount, h1, h2, h3, List.filter, ih]

/-- Claim C10: every CONNECTION line is stored at index `connNumber`, which
equals the number of CONNECTION lines already seen, so for a file with at most
6 CONNECTION lines every write lands in the bounds of the 6-element
`roomConnections` array, and the at-most-6 precondition is necessary: a file
with more CONNECTION lines produces a write at an index of at least 6. -/
theorem readFile_connection_writes (lines : List String)
    (h : connLineCount lines ≤ 6) :
    connWriteIndices 0 lines = List.range (connLineCount lines) ∧
    (∀ i ∈ connWriteIndices 0 lines, i < 6) ∧
    (∀ lines2 : List String, 6 < connLineCount lines2 →
      ∃ i ∈ connWriteIndices 0 lines2, 6 ≤ i) := by
  refine ⟨?_, ?_, ?_⟩
  · rw [connWriteIndices_eq, List.range_eq_range']
  · intro i hi
    rw [connWriteIndices_eq, ← List.range_eq_range', List.mem_range] at hi
    omega
  · intro lines2 h2
    refine ⟨connLineCount lines2 - 1, ?_, by omega⟩
    rw [connWriteIndices_eq, ← List.range_eq_range', List.mem_range]
    omega

theorem readFile_connection_writes_witness :
    connWriteIndices 0 (serializeRoom ("Dungeon") ["Garden", "Attic", "Stairs"] ("END_ROOM")) =
      List.range (connLineCount (serializeRoom ("Dungeon") ["Garden", "Attic", "Stairs"] ("END_ROOM"))) :=
  (readFile_connection_writes _ (by decide)).1

/-! ## Role assignment of setupRoomFiles -/

/-- `roomTypes` before any file is processed: all slots -1. -/
def initRoomTypes : Fin 7 → Int := fun _ => -1

/-- The duplicate scan of the redraw loop: is the drawn value present anywhere
in `roomTypes` (the slot of the current file included)? -/
def typeDup (rt : Fin 7 → Int) (d : Fin 7) : Bool :=
  (List.finRange 7).any fun x => rt x == val d

/-- The redraw-until-unique while loop for one file: each iteration draws a
value, scans the whole array for it, stores it into the file's slot regardless,
and exits when the scan found no duplicate. The draws are supplied as a list;
`none` means the supplied draws ran out before acceptance. -/
def drawRoomType (f : Fin 7) : (Fin 7 → Int) → List (Fin 7) →
    Option ((Fin 7 → Int) × List (Fin 7))
  | _, [] => none
  | rt, d :: rest =>
    if typeDup rt d then drawRoomType f (Function.update rt f (val d)) rest
    else some (Function.update rt f (val d), rest)

/-- The outer file loop of `setupRoomFiles`, restricted to its `roomTypes`
bookkeeping: each file slot in turn runs the redraw loop. -/
def assignRoomTypes : (Fin 7 → Int) → List (Fin 7) → List (Fin 7) →
    Option (Fin 7 → Int)
  | rt, [], _ => some rt
  | rt, f :: fs, draws =>
    (drawRoomType f rt draws).bind fun p => assignRoomTypes p.1 fs p.2

/-- The role string printed for a file, from its `roomTypes` value:
0 is START, 6 is END, anything else MID. -/
def roomRole (rt : Fin 7 → Int) (f : Fin 7) : String :=
  if rt f = 0 then ("START_ROOM") else if rt f = 6 then ("END_ROOM") else ("MID_ROOM")

lemma val_le_six (d : Fin 7) : val d ≤ 6 := by
  have := d.isLt
  simp only [val]
  omega

lemma drawRoomType_spec (f : Fin 7) : ∀ (draws : List (Fin 7)) (rt rt2 : Fin 7 → Int)
    (rest : List (Fin 7)), drawRoomType f rt draws = some (rt2, rest) →
    (∀ x, x ≠ f → rt2 x = rt x) ∧
      ∃ d : Fin 7, rt2 f = val d ∧ ∀ x, x ≠ f → rt x ≠ val d := by
  intro draws
  induction draws with
  | nil => intro rt rt2 rest h; simp [drawRoomType] at h
  | cons d ds ih =>
    intro rt rt2 rest h
    rw [drawRoomType] at h
    by_cases hdup : typeDup rt d
    · rw [if_pos hdup] at h
      obtain ⟨hoff, d2, hval, hnot⟩ := ih _ _ _ h
      refine ⟨?_, d2, hval, ?_⟩
      · intro x hx
        rw [hoff x hx, Function.update_noteq hx]
      · intro x hx
        have hnx := hnot x hx
        rwa [Function.update_noteq hx] at hnx
    · rw [if_neg hdup] at h
      simp only [Option.some.injEq, Prod.mk.injEq] at h
      obtain ⟨ha, -⟩ := h
      subst ha
      have hnone : ∀ x : Fin 7, rt x ≠ val d := by
        intro x hx
        apply hdup
        simp only [typeDup, List.any_eq_true, List.mem_finRange, true_and, beq_iff_eq]
        exact ⟨x, hx⟩
      refine ⟨fun x hx => Function.update_noteq hx _ _, d, Function.update_same f _ rt,
        fun x _ => hnone x⟩

lemma assignRoomTypes_spec : ∀ (fs : List (Fin 7)) (draws : List (Fin 7))
    (rt rt2 : Fin 7 → Int), fs.Nodup →
    (∀ x, x ∉ fs → 0 ≤ rt x ∧ rt x ≤ 6) →
    (∀ x y, x ≠ y → x ∉ fs → y ∉ fs → rt x ≠ rt y) →
    assignRoomTypes rt fs draws = some rt2 →
    (∀ x, 0 ≤ rt2 x ∧ rt2 x ≤ 6) ∧ (∀ x y, x ≠ y → rt2 x ≠ rt2 y) := by
  intro fs
  induction fs with
  | nil =>
    intro draws rt rt2 _ hbound hdist h
    simp only [assignRoomTypes, Option.some.injEq] at h
    subst h
    exact ⟨fun x => hbound x (by simp), fun x y hxy => hdist x y hxy (by simp) (by simp)⟩
  | cons f fs ih =>
    intro draws rt rt2 hnd hbound hdist h
    rw [assignRoomTypes] at h
    cases hdr : drawRoomType f rt draws with
    | none => rw [hdr] at h; simp at h
    | some p =>
      rw [hdr] at h
      simp only [Option.some_bind] at h
      obtain ⟨hoff, d, hval, hfresh⟩ := drawRoomType_spec f draws rt p.1 p.2 (by rw [hdr])
      have hf_not : f ∉ fs := (List.nodup_cons.mp hnd).1
      apply ih p.2 p.1 rt2 (List.nodup_cons.mp hnd).2 ?_ ?_ h
      · intro x hx
        by_cases hxf : x = f
        · subst hxf
          rw [hval]
          exact ⟨val_nonneg d, val_le_six d⟩
        · rw [hoff x hxf]
          exact hbound x (by simp only [List.mem_cons, not_or]; exact ⟨hxf, hx⟩)
      · intro x y hxy hx hy
        by_cases hxf : x = f
        · subst hxf
          rw [hval, hoff y (fun hEq => hxy hEq.symm)]
          exact fun hEq => hfresh y (fun hEq2 => hxy hEq2.symm) hEq.symm
        by_cases hyf : y = f
        · subst hyf
          rw [hval, hoff x hxf]
          exact hfresh x hxf
        · rw [hoff x hxf, hoff y hyf]
          exact hdist x y hxy (by simp only [List.mem_cons, not_or]; exact ⟨hxf, hx⟩)
            (by simp only [List.mem_cons, not_or]; exact ⟨hyf, hy⟩)

/-- Claim C4: whenever the redraw loop over `roomTypes` completes for all 7
files, the 7 stored values are pairwise distinct and in 0..6, so exactly one
room gets the role START_ROOM, exactly one gets END_ROOM, and the remaining
five get MID_ROOM. -/
theorem role_assignment (draws : List (Fin 7)) (rt : Fin 7 → Int)
    (h : assignRoomTypes initRoomTypes (List.finRange 7) draws = some rt) :
    (∀ i j : Fin 7, i ≠ j → rt i ≠ rt j) ∧
    (Finset.univ.filter fun f => roomRole rt f = "START_ROOM").card = 1 ∧
    (Finset.univ.filter fun f => roomRole rt f = "END_ROOM").card = 1 ∧
    (Finset.univ.filter fun f => roomRole rt f = "MID_ROOM").card = 5 := by
  obtain ⟨hbound, hdist⟩ := assignRoomTypes_spec (List.finRange 7) draws initRoomTypes rt
    (List.nodup_finRange 7) (fun x hx => absurd (List.mem_finRange x) hx)
    (fun x y _ hx => absurd (List.mem_finRange x) hx) h
  have hinj : Function.Injective rt := by
    intro i j hij
    by_contra hne
    exact hdist i j hne hij
  have himage : Finset.univ.image rt = Finset.Icc (0 : Int) 6 := by
    apply Finset.eq_of_subset_of_card_le
    · intro v hv
      rw [Finset.mem_image] at hv
      obtain ⟨i, -, rfl⟩ := hv
      exact Finset.mem_Icc.mpr (hbound i)
    · rw [Finset.card_image_of_injective _ hinj, Finset.card_univ, Fintype.card_fin]
      simp [Int.card_Icc]
  obtain ⟨f0, hf0⟩ : ∃ f0, rt f0 = 0 := by
    have h0 : (0 : Int) ∈ Finset.univ.image rt := by
      rw [himage]
      simp
    rw [Finset.mem_image] at h0
    obtain ⟨f0, -, hf0⟩ := h0
    exact ⟨f0, hf0⟩
  obtain ⟨f6, hf6⟩ : ∃ f6, rt f6 = 6 := by
    have h6 : (6 : Int) ∈ Finset.univ.image rt := by
      rw [himage]
      rw [Finset.mem_Icc]
      omega
    rw [Finset.mem_image] at h6
    obtain ⟨f6, -, hf6⟩ := h6
    exact ⟨f6, hf6⟩
  have hf06 : f0 ≠ f6 := by
    intro hEq
    rw [hEq, hf6] at hf0
    norm_num at hf0
  have hstart_iff : ∀ x, roomRole rt x = "START_ROOM" ↔ x = f0 := by
    intro x
    constructor
    · intro hr
      by_cases h0 : rt x = 0
      · exact hinj (by rw [h0, hf0])
      · by_cases h6 : rt x = 6 <;> simp [roomRole, h0, h6] at hr
    · rintro rfl
      simp [roomRole, hf0]
  have hend_iff : ∀ x, roomRole rt x = "END_ROOM" ↔ x = f6 := by
    intro x
    constructor
    · intro hr
      by_cases h0 : rt x = 0
      · simp [roomRole, h0] at hr
      · by_cases h6 : rt x = 6
        · exact hinj (by rw [h6, hf6])
        · simp [roomRole, h0, h6] at hr
    · intro hx
      rw [hx]
      have h60 : rt f6 ≠ 0 := by rw [hf6]; norm_num
      simp [roomRole, h60, hf6]
  have hmid_iff : ∀ x, roomRole rt x = "MID_ROOM" ↔ (x ≠ f0 ∧ x ≠ f6) := by
    intro x
    by_cases h0 : rt x = 0
    · have hx0 : x = f0 := hinj (by rw [h0, hf0])
      simp [roomRole, hx0, hf0]
    · by_cases h6 : rt x = 6
      · have hx6 : x = f6 := hinj (by rw [h6, hf6])
        have h60 : rt f6 ≠ 0 := by rw [hf6]; norm_num
        simp [roomRole, hx6, h60, hf6, hf06]
      · have hx0 : x ≠ f0 := fun hEq => h0 (by rw [hEq, hf0])
        have hx6 : x ≠ f6 := fun hEq => h6 (by rw [hEq, hf6])
        simp [roomRole, h0, h6, hx0, hx6]
  refine ⟨hdist, ?_, ?_, ?_⟩
  · have hset : (Finset.univ.filter fun x => roomRole rt x = "START_ROOM") = {f0} := by
      ext x
      simp [hstart_iff x]
    rw [hset, Finset.card_singleton]
  · have hset : (Finset.univ.filter fun x => roomRole rt x = "END_ROOM") = {f6} := by
      ext x
      simp [hend_iff x]
    rw [hset, Finset.card_singleton]
  · have hset : (Finset.univ.filter fun x => roomRole rt x = "MID_ROOM") =
        Finset.univ \ {f0, f6} := by
      ext x
      simp only [Finset.mem_filter, Finset.mem_univ, true_and, Finset.mem_sdiff,
        Finset.mem_insert, Finset.mem_singleton, hmid_iff x, not_or]
    rw [hset, Finset.card_sdiff (Finset.subset_univ _)]
    rw [Finset.card_insert_of_not_mem (by simp [hf06]), Finset.card_singleton]
    simp

/-- The `roomTypes` array produced by the draws 0,1,2,3,4,5,6 in order. -/
def rtW : Fin 7 → Int :=
  Function.update (Function.update (Function.update (Function.update (Function.update
    (Function.update (Function.update initRoomTypes 0 (val 0)) 1 (val 1)) 2 (val 2))
    3 (val 3)) 4 (val 4)) 5 (val 5)) 6 (val 6)

theorem role_assignment_witness :
    (Finset.univ.filter fun f => roomRole rtW f = "START_ROOM").card = 1 :=
  (role_assignment (List.finRange 7) rtW rfl).2.1

/-! ## The runner's traversal loop (runGameDriver) and the time subsystem -/

/-- The externally visible events of the run loop that matter here: the worker
thread lifecycle of `timeProcessing` (pthread_create, the worker's write of
currentTime.txt, pthread_join, the main thread's read of the file), the apology
printed for unrecognized input, and the win report with its step count and
path. -/
inductive GameEv where
  | spawnWorker : GameEv
  | writeTimeFile : GameEv
  | joinWorker : GameEv
  | readTimeFile : GameEv
  | apology (msg : String) : GameEv
  | win (steps : Nat) (path : List String) : GameEv
deriving DecidableEq

/-- The ordered events of one `timeProcessing` call: create the worker, the
worker writes the file (before the join returns), join, then read the file. -/
def timeEvents : List GameEv :=
  [GameEv.spawnWorker, GameEv.writeTimeFile, GameEv.joinWorker, GameEv.readTimeFile]

/-- The message printed when the input is neither a connection nor time. -/
def apologyMessage : String := "HUH? I DON’T UNDERSTAND THAT ROOM. TRY AGAIN.\n\n"

/-- The mutable state of `runGameDriver`: current room index, step count and
the visited-rooms list. -/
structure gameState where
  current : Fin 7
  stepCount : Nat
  visited : List String
deriving DecidableEq

/-- One iteration of the room-lookup loop body inside the move branch. -/
def moveStep (roomArr : Fin 7 → room) (nm : String) (p : gameState × Bool) (j : Fin 7) :
    gameState × Bool :=
  if (roomArr j).roomName == some nm then
    ({ current := j, stepCount := p.1.stepCount + 1, visited := p.1.visited ++ [nm] },
      true)
  else p

/-- The room-lookup loop: scans all 7 rooms without breaking; every index whose
name matches the input becomes the current room, bumps the step count and
appends the input to the visited list. The flag mirrors `roomFound`. -/
def moveScan (roomArr : Fin 7 → room) (st : gameState) (nm : String) :
    gameState × Bool :=
  (List.finRange 7).foldl (moveStep roomArr nm) (st, false)

/-- The connection-matching loop: does the NULL-terminated connection list of
the current room contain the input (exact strcmp match)? -/
def connHit (conns : List String) (nm : String) : Bool := conns.contains nm

/-- The connection loop plus nested room lookup: the lookup only runs when the
input matches one of the current room's connections. -/
def scanResult (roomArr : Fin 7 → room) (st : gameState) (input : String) :
    gameState × Bool :=
  if connHit (roomArr st.current).roomConnections input then moveScan roomArr st input
  else (st, false)

/-- One iteration of the run loop on the trimmed input line: the move branch
with its END_ROOM win check, else the time branch, else the apology. -/
def processInput (roomArr : Fin 7 → room) (st : gameState) (input : String) :
    gameState × List GameEv :=
  if (scanResult roomArr st input).2 then
    if (roomArr (scanResult roomArr st input).1.current).roomType == some ("END_ROOM") then
      ((scanResult roomArr st input).1,
        [GameEv.win (scanResult roomArr st input).1.stepCount
          (scanResult roomArr st input).1.visited])
    else ((scanResult roomArr st input).1, [])
  else if input == ("time") then (st, timeEvents)
  else (st, [GameEv.apology apologyMessage])

/-- The run loop over a scripted list of input lines: it stops (consuming no
further input) once the current room's type is END_ROOM, matching the loop
condition of `runGameDriver`; otherwise it processes the next line. Returns
the final state and the concatenated events. -/
def runGame (roomArr : Fin 7 → room) : gameState → List String → gameState × List GameEv
  | st, [] => (st, [])
  | st, input :: rest =>
    if (roomArr st.current).roomType == some ("END_ROOM") then (st, [])
    else
      ((runGame roomArr (processInput roomArr st input).1 rest).1,
        (processInput roomArr st input).2 ++
          (runGame roomArr (processInput roomArr st input).1 rest).2)

lemma foldl_moveStep_no_hit (roomArr : Fin 7 → room) (nm : String) :
    ∀ (L : List (Fin 7)) (p : gameState × Bool),
    (∀ k ∈ L, (roomArr k).roomName ≠ some nm) →
    L.foldl (moveStep roomArr nm) p = p := by
  intro L
  induction L with
  | nil => intro p _; rfl
  | cons a L ih =>
    intro p hmiss
    rw [List.foldl_cons, moveStep,
      if_neg (by simp only [beq_iff_eq]; exact hmiss a (List.mem_cons_self a L))]
    exact ih p fun k hk => hmiss k (List.mem_cons_of_mem a hk)

lemma foldl_moveStep_at (roomArr : Fin 7 → room) (nm : String) (j : Fin 7)
    (st : gameState) : ∀ L : List (Fin 7), L.Nodup → j ∈ L →
    (∀ k ∈ L, k ≠ j → (roomArr k).roomName ≠ some nm) →
    (roomArr j).roomName = some nm →
    L.foldl (moveStep roomArr nm) (st, false) =
      ({ current := j, stepCount := st.stepCount + 1, visited := st.visited ++ [nm] },
        true) := by
  intro L
  induction L with
  | nil => intro _ hj; simp at hj
  | cons a L ih =>
    intro hnd hj hmiss hjname
    rw [List.foldl_cons]
    by_cases haj : a = j
    · subst haj
      rw [moveStep, if_pos (by simp only [beq_iff_eq]; exact hjname)]
      apply foldl_moveStep_no_hit
      intro k hk
      exact hmiss k (List.mem_cons_of_mem a hk)
        (fun hkj => (List.nodup_cons.mp hnd).1 (hkj ▸ hk))
    · rw [moveStep,
        if_neg (by simp only [beq_iff_eq]; exact hmiss a (List.mem_cons_self a L) haj)]
      have hjL : j ∈ L := by
        rcases List.mem_cons.mp hj with h | h
        · exact absurd h.symm haj
        · exact h
      exact ih (List.nodup_cons.mp hnd).2 hjL
        (fun k hk => hmiss k (List.mem_cons_of_mem a hk)) hjname

/-- When exactly one room bears the input name, the lookup loop moves there,
bumps the step count once and appends the name once. -/
lemma moveScan_hit (roomArr : Fin 7 → room) (st : gameState) (nm : String) (j : Fin 7)
    (hInj : ∀ i i', (roomArr i).roomName = (roomArr i').roomName → i = i')
    (hj : (roomArr j).roomName = some nm) :
    moveScan roomArr st nm =
      ({ current := j, stepCount := st.stepCount + 1, visited := st.visited ++ [nm] },
        true) := by
  apply foldl_moveStep_at roomArr nm j st (List.finRange 7) (List.nodup_finRange 7)
    (List.mem_finRange j) ?_ hj
  intro k _ hkj hkname
  exact hkj (hInj k j (by rw [hkname, hj]))

/-- A scripted path: each input is a connection of the current room and the
name of some room; intermediate rooms are not the end room. -/
inductive ValidPath (roomArr : Fin 7 → room) : Fin 7 → List String → Fin 7 → Prop where
  | nil (c : Fin 7) : ValidPath roomArr c [] c
  | cons (c j d : Fin 7) (nm : String) (rest : List String) :
      (roomArr c).roomType ≠ some ("END_ROOM") →
      connHit (roomArr c).roomConnections nm = true →
      (roomArr j).roomName = some nm →
      ValidPath roomArr j rest d →
      ValidPath roomArr c (nm :: rest) d

lemma runGame_validPath (roomArr : Fin 7 → room)
    (hInj : ∀ i i', (roomArr i).roomName = (roomArr i').roomName → i = i') :
    ∀ (c d : Fin 7) (inputs : List String), ValidPath roomArr c inputs d →
    (roomArr d).roomType = some ("END_ROOM") →
    ∀ (n : Nat) (vis : List String),
    runGame roomArr ⟨c, n, vis⟩ inputs =
      (⟨d, n + inputs.length, vis ++ inputs⟩,
        if inputs.isEmpty then [] else
          [GameEv.win (n + inputs.length) (vis ++ inputs)]) := by
  intro c d inputs hpath
  induction hpath with
  | nil c =>
    intro _ n vis
    simp [runGame]
  | cons c j d nm rest hcnot hconn hname htail ih =>
    intro hend n vis
    rw [runGame]
    have hcond : ((roomArr c).roomType == some ("END_ROOM")) = false := by
      rw [beq_eq_false_iff_ne]
      exact hcnot
    rw [hcond]
    have hscan : scanResult roomArr ⟨c, n, vis⟩ nm =
        (⟨j, n + 1, vis ++ [nm]⟩, true) := by
      unfold scanResult
      rw [if_pos hconn]
      exact moveScan_hit roomArr ⟨c, n, vis⟩ nm j hInj hname
    cases htail with
    | nil =>
      have hjEnd : ((roomArr j).roomType == some ("END_ROOM")) = true := by
        rw [beq_iff_eq]
        exact hend
      simp [processInput, runGame, hscan, hjEnd]
    | cons j2 j3 d2 nm2 rest2 hjnot hconn2 hname2 htail2 =>
      have hjEnd : ((roomArr j).roomType == some ("END_ROOM")) = false := by
        rw [beq_eq_false_iff_ne]
        exact hjnot
      have ihr := ih hend (n + 1) (vis ++ [nm])
      simp [processInput, hscan, hjEnd, ihr]
      omega

/-- Claim C5: driving the run loop with a scripted sequence of valid connection
names from the start room to the end room makes each accepted move set the
destination as current room and append its name to the visited path, and on
reaching the end room the loop reports a step count equal to the length of the
input sequence and the visited names exactly in input order. -/
theorem scripted_run_reaches_end (roomArr : Fin 7 → room)
    (hInj : ∀ i i', (roomArr i).roomName = (roomArr i').roomName → i = i')
    (s e : Fin 7) (inputs : List String)
    (hstart : (roomArr s).roomType = some ("START_ROOM"))
    (hend : (roomArr e).roomType = some ("END_ROOM"))
    (hpath : ValidPath roomArr s inputs e) :
    runGame roomArr ⟨s, 0, []⟩ inputs =
      (⟨e, inputs.length, inputs⟩, [GameEv.win inputs.length inputs]) := by
  cases hpath with
  | nil =>
    exfalso
    rw [hstart] at hend
    simp at hend
  | cons c j d nm rest hcnot hconn hname htail =>
    have hrun := runGame_validPath roomArr hInj s e (nm :: rest)
      (ValidPath.cons s j e nm rest hcnot hconn hname htail) hend 0 []
    rw [hrun]
    simp

/-- Claim C7: input that is neither a connection name of the current room nor
the keyword time produces exactly the apology message and leaves the current
room, visited path and step count unchanged; a subsequent valid move from the
same state still succeeds. -/
theorem invalid_input_keeps_state (roomArr : Fin 7 → room) (st : gameState)
    (input : String)
    (hconn : connHit (roomArr st.current).roomConnections input = false)
    (htime : input ≠ "time") :
    processInput roomArr st input = (st, [GameEv.apology apologyMessage]) ∧
    ∀ (nm : String) (j : Fin 7),
      (∀ i i', (roomArr i).roomName = (roomArr i').roomName → i = i') →
      connHit (roomArr st.current).roomConnections nm = true →
      (roomArr j).roomName = some nm →
      (processInput roomArr st nm).1 =
        { current := j, stepCount := st.stepCount + 1, visited := st.visited ++ [nm] } := by
  constructor
  · have hscan : scanResult roomArr st input = (st, false) := by
      unfold scanResult
      rw [hconn]
      simp
    have htime' : (input == ("time")) = false := by
      rw [beq_eq_false_iff_ne]
      exact htime
    simp [processInput, hscan, htime']
  · intro nm j hInj hc hn
    have hscan : scanResult roomArr st nm =
        (⟨j, st.stepCount + 1, st.visited ++ [nm]⟩, true) := by
      unfold scanResult
      rw [if_pos hc]
      exact moveScan_hit roomArr st nm j hInj hn
    simp only [processInput, hscan, if_true]
    split <;> rfl

/-- The event-level validity check of the time subsystem, threading the number
of live worker threads and the write/read counters: a worker may only be
spawned when none is alive, the file write and the join require the one live
worker, and the main thread's read requires no live worker and a write backing
it (the worker it spawned has been joined after writing). -/
def timeTraceOk : Nat → Nat → Nat → List GameEv → Bool
  | a, _, _, [] => a == 0
  | a, w, r, GameEv.spawnWorker :: rest => a == 0 && timeTraceOk 1 w r rest
  | a, w, r, GameEv.writeTimeFile :: rest => a == 1 && timeTraceOk a (w + 1) r rest
  | a, w, r, GameEv.joinWorker :: rest => a == 1 && timeTraceOk 0 w r rest
  | a, w, r, GameEv.readTimeFile :: rest =>
      a == 0 && w == r + 1 && timeTraceOk a w (r + 1) rest
  | a, w, r, GameEv.apology _ :: rest => timeTraceOk a w r rest
  | a, w, r, GameEv.win _ _ :: rest => timeTraceOk a w r rest

/-- Number of worker threads spawned in a trace. -/
def spawnCount (l : List GameEv) : Nat :=
  (l.filter fun e => e == GameEv.spawnWorker).length

/-- Number of iterations of the run loop that take the time branch
(`roomFound == 0 && strcmp(userInputRoom, "time") == 0`). -/
def timeRequestCount (roomArr : Fin 7 → room) : gameState → List String → Nat
  | _, [] => 0
  | st, input :: rest =>
    if (roomArr st.current).roomType == some ("END_ROOM") then 0
    else
      (if !(scanResult roomArr st input).2 && input == ("time") then 1 else 0) +
        timeRequestCount roomArr (processInput roomArr st input).1 rest

lemma processInput_events (roomArr : Fin 7 → room) (st : gameState) (input : String) :
    (processInput roomArr st input).2 = [] ∨
      (∃ k p, (processInput roomArr st input).2 = [GameEv.win k p]) ∨
      (processInput roomArr st input).2 = [GameEv.apology apologyMessage] ∨
      (processInput roomArr st input).2 = timeEvents := by
  by_cases h1 : (scanResult roomArr st input).2 = true
  · by_cases h2 : ((roomArr (scanResult roomArr st input).1.current).roomType ==
        some ("END_ROOM")) = true
    · have hpr : processInput roomArr st input = ((scanResult roomArr st input).1,
          [GameEv.win (scanResult roomArr st input).1.stepCount
            (scanResult roomArr st input).1.visited]) := by
        simp [processInput, h1, h2]
      rw [hpr]
      exact Or.inr (Or.inl ⟨_, _, rfl⟩)
    · have hpr : processInput roomArr st input = ((scanResult roomArr st input).1, []) := by
        simp [processInput, h1, h2]
      rw [hpr]
      exact Or.inl rfl
  · by_cases h3 : (input == ("time")) = true
    · have hpr : processInput roomArr st input = (st, timeEvents) := by
        simp [processInput, h1, h3]
      rw [hpr]
      exact Or.inr (Or.inr (Or.inr rfl))
    · have hpr : processInput roomArr st input = (st, [GameEv.apology apologyMessage]) := by
        simp [processInput, h1, h3]
      rw [hpr]
      exact Or.inr (Or.inr (Or.inl rfl))

lemma runGame_trace_ok (roomArr : Fin 7 → room) :
    ∀ (inputs : List String) (st : gameState) (w : Nat),
    timeTraceOk 0 w w (runGame roomArr st inputs).2 = true := by
  intro inputs
  induction inputs with
  | nil => intro st w; simp [runGame, timeTraceOk]
  | cons input rest ih =>
    intro st w
    rw [runGame]
    by_cases hE : ((roomArr st.current).roomType == some ("END_ROOM")) = true
    · rw [if_pos hE]
      simp [timeTraceOk]
    · rw [if_neg hE]
      rcases processInput_events roomArr st input with h | ⟨k, p, h⟩ | h | h <;>
        simp only [h, timeEvents, List.nil_append, List.cons_append, timeTraceOk,
          beq_self_eq_true, Bool.true_and] <;>
        exact ih (processInput roomArr st input).1 _

lemma processInput_spawnCount (roomArr : Fin 7 → room) (st : gameState)
    (input : String) :
    spawnCount (processInput roomArr st input).2 =
      (if !(scanResult roomArr st input).2 && input == ("time") then 1 else 0) := by
  unfold processInput
  cases h1 : (scanResult roomArr st input).2 with
  | true =>
    simp only [h1, if_true, Bool.not_true, Bool.false_and, Bool.false_eq_true, if_false]
    split <;> simp [spawnCount]
  | false =>
    simp only [h1, Bool.false_eq_true, if_false, Bool.not_false, Bool.true_and]
    cases h3 : (input == ("time")) with
    | true => simp [h3, spawnCount, timeEvents]
    | false => simp [h3, spawnCount]

lemma runGame_spawnCount (roomArr : Fin 7 → room) :
    ∀ (inputs : List String) (st : gameState),
    spawnCount (runGame roomArr st inputs).2 = timeRequestCount roomArr st inputs := by
  intro inputs
  induction inputs with
  | nil => intro st; simp [runGame, timeRequestCount, spawnCount]
  | cons input rest ih =>
    intro st
    rw [runGame, timeRequestCount]
    by_cases hE : ((roomArr st.current).roomType == some ("END_ROOM")) = true
    · rw [if_pos hE, if_pos hE]
      simp [spawnCount]
    · rw [if_neg hE, if_neg hE]
      have happ : spawnCount ((processInput roomArr st input).2 ++
          (runGame roomArr (processInput roomArr st input).1 rest).2) =
          spawnCount (processInput roomArr st input).2 +
            spawnCount (runGame roomArr (processInput roomArr st input).1 rest).2 := by
        simp [spawnCount, List.filter_append]
      rw [happ, processInput_spawnCount, ih]

/-- Claim C9: over any scripted session, the event trace of the run loop keeps
at most one worker thread alive at any time, every time request spawns exactly
one worker, and every read of the time file happens with no worker alive and
with the write of the joined worker completed (the counters threaded by
`timeTraceOk` enforce spawn-from-idle, write-then-join, and read-after-join). -/
theorem time_thread_discipline (roomArr : Fin 7 → room) (st : gameState)
    (inputs : List String) :
    timeTraceOk 0 0 0 (runGame roomArr st inputs).2 = true ∧
    spawnCount (runGame roomArr st inputs).2 = timeRequestCount roomArr st inputs :=
  ⟨runGame_trace_ok roomArr inputs st 0, runGame_spawnCount roomArr inputs st⟩

/-- A concrete parsed room array used by the runner witnesses. -/
def roomW : Fin 7 → room := fun i =>
  if i = 0 then ⟨some ("Dungeon"), some ("START_ROOM"), ["Garden", "Game", "Medical"]⟩
  else if i = 1 then ⟨some ("Barracks"), some ("MID_ROOM"), ["Game", "Medical", "Stairs"]⟩
  else if i = 2 then ⟨some ("Garden"), some ("MID_ROOM"), ["Dungeon", "Kitchen", "Basement"]⟩
  else if i = 3 then ⟨some ("Game"), some ("MID_ROOM"), ["Dungeon", "Barracks", "Basement"]⟩
  else if i = 4 then ⟨some ("Medical"), some ("MID_ROOM"), ["Dungeon", "Barracks", "Kitchen"]⟩
  else if i = 5 then ⟨some ("Basement"), some ("MID_ROOM"), ["Garden", "Game", "Kitchen"]⟩
  else ⟨some ("Kitchen"), some ("END_ROOM"), ["Garden", "Medical", "Basement"]⟩

theorem scripted_run_reaches_end_witness :
    runGame roomW ⟨0, 0, []⟩ ["Garden", "Kitchen"] =
      (⟨6, 2, ["Garden", "Kitchen"]⟩, [GameEv.win 2 ["Garden", "Kitchen"]]) :=
  scripted_run_reaches_end roomW (by decide) 0 6 ["Garden", "Kitchen"] (by decide)
    (by decide)
    (ValidPath.cons 0 2 6 ("Garden") ["Kitchen"] (by decide) (by decide) (by decide)
      (ValidPath.cons 2 6 6 ("Kitchen") [] (by decide) (by decide) (by decide)
        (ValidPath.nil 6)))

theorem invalid_input_keeps_state_witness :
    processInput roomW ⟨0, 0, []⟩ ("Attic") = (⟨0, 0, []⟩, [GameEv.apology apologyMessage]) :=
  (invalid_input_keeps_state roomW ⟨0, 0, []⟩ ("Attic") (by decide) (by decide)).1

/-! ## Directory selection (mostRecentRooms) -/

/-- One scan step of `mostRecentRooms`: an entry whose name contains the fixed
marker `trompj.rooms.` (strstr) and whose cast modification time strictly
exceeds the best time seen so far replaces the recorded name and time. -/
def dirScanStep (best : String × Int) (e : String × Int) : String × Int :=
  if strstrB e.1 ("trompj.rooms.") then (if e.2 > best.2 then e else best) else best

/-- `mostRecentRooms` over the directory entries in scan order, starting from
the zeroed name buffer and `newestModified = -1`. -/
def mostRecentRooms (entries : List (String × Int)) : String :=
  (entries.foldl dirScanStep ("", -1)).1

lemma strstrChars_of_isPrefix {needle hay : List Char}
    (h : needle.isPrefixOf hay = true) : strstrChars hay needle = true := by
  cases hay with
  | nil => simpa [strstrChars] using h
  | cons c t => simp [strstrChars, h]

lemma foldl_dirScan_no_update : ∀ (l : List (String × Int)) (best : String × Int),
    (∀ e ∈ l, e.2 ≤ best.2) → l.foldl dirScanStep best = best := by
  intro l
  induction l with
  | nil => intro best _; rfl
  | cons e l ih =>
    intro best hle
    rw [List.foldl_cons]
    have hstep : dirScanStep best e = best := by
      unfold dirScanStep
      have he := hle e (List.mem_cons_self e l)
      by_cases hs : strstrB e.1 ("trompj.rooms.") = true
      · rw [if_pos hs, if_neg (by omega)]
      · rw [if_neg hs]
    rw [hstep]
    exact ih best fun e2 he2 => hle e2 (List.mem_cons_of_mem e he2)

lemma foldl_dirScan_lt {t : Int} : ∀ (l : List (String × Int)) (best : String × Int),
    best.2 < t → (∀ e ∈ l, e.2 < t) → (l.foldl dirScanStep best).2 < t := by
  intro l
  induction l with
  | nil => intro best hb _; exact hb
  | cons e l ih =>
    intro best hb hlt
    rw [List.foldl_cons]
    have hstep : (dirScanStep best e).2 < t := by
      unfold dirScanStep
      by_cases hs : strstrB e.1 ("trompj.rooms.") = true
      · rw [if_pos hs]
        by_cases hgt : e.2 > best.2
        · rw [if_pos hgt]
          exact hlt e (List.mem_cons_self e l)
        · rw [if_neg hgt]
          exact hb
      · rw [if_neg hs]
        exact hb
    exact ih (dirScanStep best e) hstep fun e2 he2 => hlt e2 (List.mem_cons_of_mem e he2)

/-- Claim C6: among directory entries sharing the fixed name marker, with one
entry's modification time strictly greater than all others (for three entries
with times T1 < T2 < T3, the one carrying T3), `mostRecentRooms` stores that
entry's name, whatever the scan order around it. -/
theorem mostRecentRooms_picks_latest (l1 l2 : List (String × Int)) (nm : String)
    (t : Int)
    (hpre : ∀ e ∈ l1 ++ (nm, t) :: l2,
      (("trompj.rooms.").toList).isPrefixOf e.1.toList = true)
    (ht : 0 ≤ t)
    (hmax : ∀ e ∈ l1 ++ l2, e.2 < t) :
    mostRecentRooms (l1 ++ (nm, t) :: l2) = nm := by
  unfold mostRecentRooms
  rw [List.foldl_append, List.foldl_cons]
  have hb1 : ((l1.foldl dirScanStep ("", -1)).2) < t := by
    apply foldl_dirScan_lt l1 ("", -1) (by simp; omega)
    intro e he
    exact hmax e (List.mem_append_left _ he)
  have hstep : dirScanStep (l1.foldl dirScanStep ("", -1)) (nm, t) = (nm, t) := by
    have hs : strstrB nm ("trompj.rooms.") = true :=
      strstrChars_of_isPrefix (hpre (nm, t) (by simp))
    simp only [dirScanStep]
    simp [hs, hb1]
  rw [hstep, foldl_dirScan_no_update l2 (nm, t)
    (fun e he => le_of_lt (hmax e (List.mem_append_right _ he)))]

theorem mostRecentRooms_picks_latest_witness :
    mostRecentRooms
      [("trompj.rooms.101", 5), ("trompj.rooms.300", 9), ("trompj.rooms.202", 7)] =
      "trompj.rooms.300" :=
  mostRecentRooms_picks_latest [("trompj.rooms.101", 5)] [("trompj.rooms.202", 7)]
    ("trompj.rooms.300") 9 (by decide) (by decide) (by decide)

/-! ## Prompt input trimming (runGameDriver) -/

/-- The string actually compared by the run loop: `strcpy` of the fgets buffer
followed by `userInputRoom[strlen(userInputRoom) - 1] = '\0'`, which removes
the final character of the line unconditionally. -/
def trimmedInput (line : String) : String := (line.toList.dropLast).asString

/-- Trimming as the specification phrases it: remove the trailing newline when
there is one and nothing otherwise. Stated from the spec's words, for
comparison against `trimmedInput`. -/
def specTrimmedInput (line : String) : String :=
  if line.toList.getLast? = some '\n' then (line.toList.dropLast).asString else line

/-- Claim C8 as stated is false on the code: a nonempty line that does not end
in a newline (fgets at end of input) loses its final non-newline character. -/
theorem trimmedInput_counterexample :
    ("Garden" : String) ≠ "" ∧ trimmedInput ("Garden") = "Garde" ∧
      specTrimmedInput ("Garden") = "Garden" ∧
      trimmedInput ("Garden") ≠ specTrimmedInput ("Garden") :=
  ⟨by decide, by decide, by decide, by decide⟩

/-- Claim C8 amended: for every input line that does end with a newline, the
compared string is the line with exactly its trailing newline removed — no
other character is dropped and no normalization happens — it agrees with the
spec's description of the trimming, and connection matching tests exact string
equality of the trimmed input; a line without a trailing newline loses its
final character instead. -/
theorem trimmedInput_amended (line : String)
    (h : line.toList.getLast? = some '\n') :
    (trimmedInput line).toList ++ ['\n'] = line.toList ∧
      trimmedInput line = specTrimmedInput line ∧
      ∀ conns : List String,
        connHit conns (trimmedInput line) = true ↔ trimmedInput line ∈ conns := by
  refine ⟨?_, ?_, ?_⟩
  · rw [trimmedInput, List.toList_asString]
    exact List.dropLast_append_getLast? '\n' (Option.mem_def.mpr h)
  · rw [trimmedInput, specTrimmedInput, if_pos h]
  · intro conns
    simp [connHit]

theorem trimmedInput_amended_witness :
    (trimmedInput ("Garden\n")).toList ++ ['\n'] = ("Garden\n").toList :=
  (trimmedInput_amended ("Garden\n") (by decide)).1

end AdventureGame
